import Mathlib

set_option autoImplicit false

/-!
Shallow embedding of `src/webmap.ts` (kartograf): the level/layer composition
and synchronization engine built on Leaflet.

Modelling decisions, all forced by the JavaScript/Leaflet semantics:
* JavaScript objects keyed by strings are insertion-ordered association lists
  (`StrMap`); `obj[k] = v` is `strSet` (replace in place when the key exists,
  append otherwise) and `for (const k in obj)` iterates the list in order.
* Every Leaflet layer object carries a unique numeric stamp; renderables
  (`Renderable`) therefore carry a `rid` field allocated from a counter that
  the factory threads through construction in the source's allocation order.
  `L.Control.Layers.removeLayer` removes the first control entry whose layer
  has the given stamp; `addBaseLayer`/`addOverlay` push an entry.
* `_getOverlays` reads `this.config.layers[layerName].display`; when the
  config has no entry for `layerName` that is a thrown `TypeError`, so the
  function is embedded with `Except`.
-/

/-- Geographic bounds (`this.map.bounds`); the code passes the value through
to Leaflet unchanged, so a wrapped token value suffices. -/
structure Bounds where
  val : Nat
deriving DecidableEq, Repr

/-- One level of the map description (`Level`): an optional ordered list of
underlay names. -/
structure MapLevel where
  underlays : Option (List String)
deriving DecidableEq, Repr

/-- The map description (`Map` in `index.ts`): bounds, the ordered `layers`
list (first entry is the primary visual, the rest are overlay names), the
`levels` object, and the `mainLevel` name. -/
structure MapDesc where
  bounds : Bounds
  layers : List String
  levels : List (String × MapLevel)
  mainLevel : String
deriving DecidableEq, Repr

/-- Per-layer configuration entry (`config.layers[name]`): the display label. -/
structure LayerCfg where
  display : String
deriving DecidableEq, Repr

/-- `config.layerSettings`: either `{ type: 'Tiles', tileSize }` or some
non-Tiles variant. -/
inductive LayerSettings where
  | tiles (tileSize : Nat)
  | other
deriving DecidableEq, Repr

/-- The global configuration (`Config`). -/
structure Config where
  layerSettings : Option LayerSettings
  layers : List (String × LayerCfg)
deriving DecidableEq, Repr

/-- Insertion-ordered association list modelling a JavaScript object with
string keys. -/
abbrev StrMap (α : Type) := List (String × α)

/-- `obj[k]` (read): first entry with the key, if any. -/
def strGet {α : Type} : StrMap α → String → Option α
  | [], _ => none
  | (k, v) :: rest, q => if k = q then some v else strGet rest q

/-- `obj[k] = v` (write): replace the value in place when the key exists,
append a fresh entry otherwise — JavaScript property-assignment order. -/
def strSet {α : Type} : StrMap α → String → α → StrMap α
  | [], k, v => [(k, v)]
  | (k0, v0) :: rest, k, v =>
      if k0 = k then (k0, v) :: rest else (k0, v0) :: strSet rest k v

/-- The key list of an object, in iteration order. -/
def strKeys {α : Type} (m : StrMap α) : List String := m.map Prod.fst

/-- `FileLayerPathGetter`: `(mapName, levelOrUnderlayName, layerName) → path`.
The two built-in getters live in files outside `src/`, so the getter is kept
fully abstract; every theorem quantifies over it. -/
abbrev PathGetter : Type := String → String → String → String

/-- A Leaflet layer object as constructed by the code: a tile layer
(`L.tileLayer`), an image overlay (`L.imageOverlay`) or a layer group
(`L.layerGroup`).  `rid` is the unique Leaflet stamp. -/
inductive Renderable where
  | tile (rid : Nat) (url : String) (bounds : Bounds)
      (maxZoom maxNativeZoom : Nat) (tileSize : Nat) (className : Option String)
  | image (rid : Nat) (url : String) (bounds : Bounds) (className : Option String)
  | group (rid : Nat) (members : List Renderable)

/-- The Leaflet stamp of a renderable. -/
def Renderable.rid : Renderable → Nat
  | .tile i _ _ _ _ _ _ => i
  | .image i _ _ _ => i
  | .group i _ => i

/-- The url/path a tile or image renderable was constructed from. -/
def Renderable.urlOf : Renderable → Option String
  | .tile _ u _ _ _ _ _ => some u
  | .image _ u _ _ => some u
  | .group _ _ => none

/-- Members of a layer group (empty for non-groups). -/
def membersOf : Renderable → List Renderable
  | .group _ ms => ms
  | _ => []

/-- The `/{z}/{x}/{y}.png` template suffix appended to tiled paths. -/
def tileSuffix : String := "/\x7bz\x7d/\x7bx\x7d/\x7by\x7d.png"

/-- `this.map.layers[0]`; reading index 0 of an empty JavaScript array gives
`undefined`, which stringifies to "undefined" once interpolated. -/
def primaryName (m : MapDesc) : String := m.layers.headD "undefined"

/-- One underlay renderable (`_getBaseLayersForMap`, underlay branch):
tiles get bounds, `maxZoom`/`maxNativeZoom` 4, the configured tile size and
class `UnderlayLayer`; otherwise an image overlay with class `UnderlayLayer`.
The path is resolved with `(mapName, underlayName, layers[0])`. -/
def mkUnderlay (pg : PathGetter) (cfg : Config) (mapName : String) (m : MapDesc)
    (underlayName : String) (c : Nat) : Renderable :=
  match cfg.layerSettings with
  | some (.tiles ts) =>
      .tile c (pg mapName underlayName (primaryName m) ++ tileSuffix) m.bounds 4 4 ts
        (some "UnderlayLayer")
  | _ =>
      .image c (pg mapName underlayName (primaryName m)) m.bounds (some "UnderlayLayer")

/-- The `for (const underlayName of level.underlays)` loop, allocating one
stamp per underlay. -/
def mkUnderlays (pg : PathGetter) (cfg : Config) (mapName : String) (m : MapDesc) :
    List String → Nat → List Renderable
  | [], _ => []
  | n :: rest, c => mkUnderlay pg cfg mapName m n c :: mkUnderlays pg cfg mapName m rest (c + 1)

/-- The level's primary visual (`_getBaseLayersForMap`, `baseLayer`):
resolved with `(mapName, levelName, layers[0])`, no class name. -/
def mkBaseVisual (pg : PathGetter) (cfg : Config) (mapName : String) (m : MapDesc)
    (levelName : String) (c : Nat) : Renderable :=
  match cfg.layerSettings with
  | some (.tiles ts) =>
      .tile c (pg mapName levelName (primaryName m) ++ tileSuffix) m.bounds 4 4 ts none
  | _ =>
      .image c (pg mapName levelName (primaryName m)) m.bounds none

/-- Number of underlays of a level. -/
def underlayCount (lv : MapLevel) : Nat := (lv.underlays.getD []).length

/-- One level's composite base layer:
`L.layerGroup(underlays).addLayer(baseLayer)` — the underlays in order, then
the primary visual.  Stamps are allocated in source order: the underlays,
then the primary visual, then the group object itself. -/
def mkLevelBase (pg : PathGetter) (cfg : Config) (mapName : String) (m : MapDesc)
    (levelName : String) (lv : MapLevel) (c : Nat) : Renderable :=
  .group (c + underlayCount lv + 1)
    (mkUnderlays pg cfg mapName m (lv.underlays.getD []) c ++
      [mkBaseVisual pg cfg mapName m levelName (c + underlayCount lv)])

/-- Stamps consumed while building one level's base layer. -/
def levelBaseSize (lv : MapLevel) : Nat := underlayCount lv + 2

/-- The `for (const levelName in this.map.levels)` loop of
`_getBaseLayersForMap`, with `baseLayers[levelName] = …` assignments. -/
def baseLayersLoop (pg : PathGetter) (cfg : Config) (mapName : String) (m : MapDesc) :
    List (String × MapLevel) → StrMap Renderable → Nat → StrMap Renderable
  | [], acc, _ => acc
  | (k, lv) :: rest, acc, c =>
      baseLayersLoop pg cfg mapName m rest
        (strSet acc k (mkLevelBase pg cfg mapName m k lv c)) (c + levelBaseSize lv)

/-- Stamps consumed by `_getBaseLayersForMap` in total. -/
def basesSize : List (String × MapLevel) → Nat
  | [] => 0
  | (_, lv) :: rest => levelBaseSize lv + basesSize rest

/-- `Webmap._getBaseLayersForMap`. -/
def getBaseLayersForMap (pg : PathGetter) (cfg : Config) (mapName : String) (m : MapDesc)
    (c : Nat) : StrMap Renderable :=
  baseLayersLoop pg cfg mapName m m.levels [] c

/-- One overlay renderable (`_getOverlays`): resolved with
`(mapName, levelName, layerName)`; tiles always use tile size 1024. -/
def mkOverlayVisual (pg : PathGetter) (cfg : Config) (mapName : String) (m : MapDesc)
    (levelName layerName : String) (c : Nat) : Renderable :=
  match cfg.layerSettings with
  | some (.tiles _) =>
      .tile c (pg mapName levelName layerName ++ tileSuffix) m.bounds 4 4 1024 none
  | _ =>
      .image c (pg mapName levelName layerName) m.bounds none

/-- The `for (const layerName of this.map.layers.slice(1))` loop of
`_getOverlays` for one level.  `this.config.layers[layerName]` being absent
makes the subsequent `.display` read throw a `TypeError`. -/
def overlayLevelLoop (pg : PathGetter) (cfg : Config) (mapName : String) (m : MapDesc)
    (levelName : String) : List String → StrMap Renderable → Nat →
    Except String (StrMap Renderable)
  | [], acc, _ => .ok acc
  | n :: rest, acc, c =>
      match strGet cfg.layers n with
      | none => .error ("TypeError: cannot read display of undefined layer config " ++ n)
      | some lc =>
          overlayLevelLoop pg cfg mapName m levelName rest
            (strSet acc lc.display (mkOverlayVisual pg cfg mapName m levelName n c)) (c + 1)

/-- The outer `for (const levelName in this.map.levels)` loop of
`_getOverlays`: `overlays[levelName] = {}` followed by the inner loop filling
that object in place. -/
def overlaysLoop (pg : PathGetter) (cfg : Config) (mapName : String) (m : MapDesc) :
    List (String × MapLevel) → StrMap (StrMap Renderable) → Nat →
    Except String (StrMap (StrMap Renderable))
  | [], acc, _ => .ok acc
  | (k, _) :: rest, acc, c =>
      match overlayLevelLoop pg cfg mapName m k (m.layers.drop 1) [] c with
      | .error e => .error e
      | .ok lm => overlaysLoop pg cfg mapName m rest (strSet acc k lm) (c + (m.layers.drop 1).length)

/-- `Webmap._getOverlays`. -/
def getOverlays (pg : PathGetter) (cfg : Config) (mapName : String) (m : MapDesc)
    (c : Nat) : Except String (StrMap (StrMap Renderable)) :=
  overlaysLoop pg cfg mapName m m.levels [] c

/-- One entry of the Leaflet layers control `_layers` array: the stamp of the
registered layer, the label, and the base/overlay flag. -/
structure ControlEntry where
  layerId : Nat
  label : String
  isOverlay : Bool
deriving DecidableEq, Repr

/-- The `_layers` array of `L.Control.Layers`, in registration order. -/
abbrev ControlState := List ControlEntry

/-- `control.addBaseLayer(layer, label)`. -/
def addBaseLayerEntry (st : ControlState) (r : Renderable) (label : String) : ControlState :=
  st ++ [⟨r.rid, label, false⟩]

/-- `control.addOverlay(layer, label)`. -/
def addOverlayEntry (st : ControlState) (r : Renderable) (label : String) : ControlState :=
  st ++ [⟨r.rid, label, true⟩]

/-- `control.removeLayer(layer)`: drop the first entry carrying the stamp. -/
def removeLayerEntry : ControlState → Nat → ControlState
  | [], _ => []
  | e :: rest, i => if e.layerId = i then rest else e :: removeLayerEntry rest i

/-- Repeated `removeLayer` calls, one per renderable. -/
def removeEntries : ControlState → List Renderable → ControlState
  | st, [] => st
  | st, r :: rs => removeEntries (removeLayerEntry st r.rid) rs

/-- Repeated `addOverlay` calls, one per (label, renderable) pair. -/
def addEntries : ControlState → List (String × Renderable) → ControlState
  | st, [] => st
  | st, (label, r) :: rest => addEntries (addOverlayEntry st r label) rest

/-- All overlay renderables of all levels, in the iteration order of the
nested `for … in` loops of `_updateOverlays` step 1. -/
def allOverlayRenderables : StrMap (StrMap Renderable) → List Renderable
  | [] => []
  | (_, lm) :: rest => lm.map Prod.snd ++ allOverlayRenderables rest

/-- `this._overlays[targetLevel]` as iterated by `_updateOverlays` step 2;
`for … in undefined` iterates nothing, hence the `[]` default. -/
def entriesForLevel (ov : StrMap (StrMap Renderable)) (target : String) :
    List (String × Renderable) :=
  (strGet ov target).getD []

/-- `Webmap._updateOverlays(targetLevel)`: remove every overlay renderable of
every level from the control, then add the target level's overlays keyed by
their display labels. -/
def updateOverlays (ov : StrMap (StrMap Renderable)) (target : String)
    (st : ControlState) : ControlState :=
  addEntries (removeEntries st (allOverlayRenderables ov)) (entriesForLevel ov target)

/-- `Webmap._addBaseLayersToControl`. -/
def addBaseLayersToControl : StrMap Renderable → ControlState → ControlState
  | [], st => st
  | (label, r) :: rest, st => addBaseLayersToControl rest (addBaseLayerEntry st r label)

/-- `Webmap._findMainBaseLayer`: first base layer whose name equals
`this.map.mainLevel`. -/
def findMainBaseLayer : StrMap Renderable → String → Option (Renderable × String)
  | [], _ => none
  | (layerName, layer) :: rest, ml =>
      if layerName = ml then some (layer, layerName) else findMainBaseLayer rest ml

/-- Observable state of a `Webmap` after `initialize()`: the control's entry
list, the stamps of the layers added to the map view, the two built maps, the
resolved main base layer, and the bounds passed to
`setMaxBounds`/`fitBounds`. -/
structure WebmapState where
  control : ControlState
  viewLayerIds : List Nat
  baseLayers : StrMap Renderable
  overlays : StrMap (StrMap Renderable)
  mainBase : Option (Renderable × String)
  maxBoundsSet : Option Bounds
  fitBoundsSet : Option Bounds

/-- `Webmap.initialize()`: set and fit bounds, build the base layers (stamps
from 0), register them with the control, build the overlays (stamps
continuing after the base layers), resolve the main base layer and, when
found, run `_updateOverlays` for it and add it to the view.  A `TypeError`
thrown by `_getOverlays` propagates. -/
def initializeWebmap (pg : PathGetter) (cfg : Config) (mapName : String) (m : MapDesc) :
    Except String WebmapState :=
  let bases := getBaseLayersForMap pg cfg mapName m 0
  let st1 := addBaseLayersToControl bases []
  match getOverlays pg cfg mapName m (basesSize m.levels) with
  | .error e => .error e
  | .ok ov =>
      match findMainBaseLayer bases m.mainLevel with
      | some (g, levelName) =>
          .ok ⟨updateOverlays ov levelName st1, [g.rid], bases, ov,
                some (g, levelName), some m.bounds, some m.bounds⟩
      | none => .ok ⟨st1, [], bases, ov, none, some m.bounds, some m.bounds⟩

/-- Statement helper: the stamp list of a control state. -/
def entryIds (st : ControlState) : List Nat := st.map ControlEntry.layerId

/-- Statement helper: the stamps of all overlay renderables of all levels. -/
def overlayIds (ov : StrMap (StrMap Renderable)) : List Nat :=
  (allOverlayRenderables ov).map Renderable.rid

/-- The overlay entries of a control state. -/
def overlayEntriesOf (st : ControlState) : ControlState := st.filter (fun e => e.isOverlay)

/-- The base-layer entries of a control state. -/
def baseEntriesOf (st : ControlState) : ControlState := st.filter (fun e => !e.isOverlay)

/-- The control entries that registering `es` as overlays produces. -/
def mkOvEntries (es : List (String × Renderable)) : ControlState :=
  es.map (fun p => ⟨p.2.rid, p.1, true⟩)

/-- The control entries that registering a base-layer map produces. -/
def mkBaseCtrlEntries (bases : StrMap Renderable) : ControlState :=
  bases.map (fun p => ⟨p.2.rid, p.1, false⟩)

/-- Entries whose stamp is not in `ids` (specification-side form of the full
overlay clear). -/
def keepNotIn (ids : List Nat) : ControlState → ControlState
  | [] => []
  | e :: rest =>
      if e.layerId ∈ ids then keepNotIn ids rest else e :: keepNotIn ids rest

/-- The configured tile size, when the strategy is `Tiles`. -/
def cfgTileSize (cfg : Config) : Option Nat :=
  match cfg.layerSettings with
  | some (.tiles ts) => some ts
  | _ => none

/-- A renderable is a tile layer with the given bounds, zoom caps 4/4 and the
given tile size. -/
def tileOk (b : Bounds) (ts : Nat) : Renderable → Bool
  | .tile _ _ b2 mz mnz ts2 _ => b2 == b && mz == 4 && mnz == 4 && ts2 == ts
  | _ => false

/-- A renderable is an image overlay bound to the given bounds. -/
def imageOk (b : Bounds) : Renderable → Bool
  | .image _ _ b2 _ => b2 == b
  | _ => false

/-- The url a resolved location yields under the active strategy (tiled paths
get the `/z/x/y` template suffix appended). -/
def resolvedUrl (cfg : Config) (loc : String) : String :=
  match cfg.layerSettings with
  | some (.tiles _) => loc ++ tileSuffix
  | _ => loc

/-- The urls of a group's members, in stacking order. -/
def memberUrls (r : Renderable) : List String := (membersOf r).filterMap Renderable.urlOf

/-- The display labels the config assigns to a list of layer names (skipping
absent entries). -/
def displaysOf (cfg : Config) (names : List String) : List String :=
  names.filterMap (fun n => (strGet cfg.layers n).map LayerCfg.display)

/-- Reference form of one level's overlay object: what `overlayLevelLoop`
appends to its accumulator (empty from the first absent config entry on,
which is the error case). -/
def expLevelEntries (pg : PathGetter) (cfg : Config) (mapName : String) (m : MapDesc)
    (levelName : String) : List String → Nat → StrMap Renderable
  | [], _ => []
  | n :: rest, c =>
      match strGet cfg.layers n with
      | none => []
      | some lc =>
          (lc.display, mkOverlayVisual pg cfg mapName m levelName n c) ::
            expLevelEntries pg cfg mapName m levelName rest (c + 1)

/-- Reference form of the base-layer map: what `baseLayersLoop` appends to
its accumulator when the level keys are fresh. -/
def expBaseEntries (pg : PathGetter) (cfg : Config) (mapName : String) (m : MapDesc) :
    List (String × MapLevel) → Nat → StrMap Renderable
  | [], _ => []
  | (k, lv) :: rest, c =>
      (k, mkLevelBase pg cfg mapName m k lv c) ::
        expBaseEntries pg cfg mapName m rest (c + levelBaseSize lv)

/-- Reference form of the overlays map: what `overlaysLoop` appends to its
accumulator when the level keys are fresh. -/
def expOvEntries (pg : PathGetter) (cfg : Config) (mapName : String) (m : MapDesc) :
    List (String × MapLevel) → Nat → StrMap (StrMap Renderable)
  | [], _ => []
  | (k, _) :: rest, c =>
      (k, expLevelEntries pg cfg mapName m k (m.layers.drop 1) c) ::
        expOvEntries pg cfg mapName m rest (c + (m.layers.drop 1).length)

/-- Whether an `Except` computation succeeded. -/
def exceptOk {α : Type} : Except String α → Bool
  | .ok _ => true
  | .error _ => false

/-- Extract the state of a successful initialization (dummy state on error;
only ever applied to successful runs). -/
def getOkState : Except String WebmapState → WebmapState
  | .ok w => w
  | .error _ => ⟨[], [], [], [], none, none, none⟩

/-- Level lengths of a built overlays map, for concrete evaluation. -/
def levelLengthsOf (r : Except String (StrMap (StrMap Renderable))) :
    Option (List (String × Nat)) :=
  match r with
  | .ok ov => some (ov.map (fun p => (p.1, p.2.length)))
  | .error _ => none

/-- Concrete path getter used by witnesses. -/
def pg0 : PathGetter := fun a b c => a ++ "/" ++ b ++ "/" ++ c

/-- Concrete bounds used by witnesses. -/
def bounds0 : Bounds := ⟨0⟩

/-- Concrete Tiles configuration used by witnesses. -/
def cfg0 : Config :=
  ⟨some (.tiles 256),
   [("floor", ⟨"Floor"⟩), ("electrical", ⟨"Electrical"⟩), ("plumbing", ⟨"Plumbing"⟩)]⟩

/-- Concrete two-level map description used by witnesses. -/
def map0 : MapDesc :=
  ⟨bounds0, ["floor", "electrical", "plumbing"],
   [("L1", ⟨none⟩), ("L2", ⟨some ["basement"]⟩)], "L1"⟩

/-- Configuration whose two overlay layers share one display label. -/
def cfg5 : Config := ⟨none, [("a", ⟨"X"⟩), ("b", ⟨"X"⟩)]⟩

/-- Map description with one level and two overlay names. -/
def map5 : MapDesc := ⟨bounds0, ["f", "a", "b"], [("L", ⟨none⟩)], "L"⟩

/-- Configuration missing the entry for overlay name "missing". -/
def cfg10 : Config := ⟨none, [("f", ⟨"F"⟩)]⟩

/-- Map description with no levels but an overlay name absent from the
configuration. -/
def map10 : MapDesc := ⟨bounds0, ["f", "missing"], [], "L"⟩

/-- The state reached by the concrete initialization run. -/
def ws0 : WebmapState := getOkState (initializeWebmap pg0 cfg0 "station" map0)

/-- The overlays map built by the concrete initialization run. -/
def ov0 : StrMap (StrMap Renderable) := ws0.overlays

/-- The control state reached by the concrete initialization run. -/
def st0 : ControlState := ws0.control

theorem strSet_fresh {α : Type} (a : StrMap α) (k : String) (v : α)
    (h : k ∉ strKeys a) : strSet a k v = a ++ [(k, v)] := by
  induction a with
  | nil => rfl
  | cons p rest ih =>
      obtain ⟨k0, v0⟩ := p
      simp [strKeys] at h
      simp [strSet, Ne.symm h.1, ih (by simpa [strKeys] using h.2)]

theorem strGet_eq_none_iff {α : Type} (a : StrMap α) (k : String) :
    strGet a k = none ↔ k ∉ strKeys a := by
  induction a with
  | nil => simp [strGet, strKeys]
  | cons p rest ih =>
      obtain ⟨k0, v0⟩ := p
      by_cases hk : k0 = k
      · subst hk; simp [strGet, strKeys]
      · simp [strGet, hk, strKeys, ih, Ne.symm hk]

theorem strGet_mem {α : Type} {a : StrMap α} {k : String} {v : α}
    (h : strGet a k = some v) : (k, v) ∈ a := by
  induction a with
  | nil => simp [strGet] at h
  | cons p rest ih =>
      obtain ⟨k0, v0⟩ := p
      by_cases hk : k0 = k
      · subst hk
        simp [strGet] at h
        simp [h]
      · simp [strGet, hk] at h
        exact List.mem_cons_of_mem _ (ih h)

theorem mem_strSet {α : Type} {a : StrMap α} {k : String} {v : α} {p : String × α}
    (h : p ∈ strSet a k v) : p ∈ a ∨ p = (k, v) := by
  induction a with
  | nil => simpa [strSet] using h
  | cons q rest ih =>
      obtain ⟨k0, v0⟩ := q
      by_cases hk : k0 = k
      · subst hk
        simp [strSet] at h
        rcases h with h | h
        · exact Or.inr (by simp [h])
        · exact Or.inl (List.mem_cons_of_mem _ h)
      · simp [strSet, hk] at h
        rcases h with h | h
        · exact Or.inl (by simp [h])
        · rcases ih h with h' | h'
          · exact Or.inl (List.mem_cons_of_mem _ h')
          · exact Or.inr h'

theorem keepNotIn_sublist (ids : List Nat) (st : ControlState) :
    List.Sublist (keepNotIn ids st) st := by
  induction st with
  | nil => simp [keepNotIn]
  | cons e rest ih =>
      by_cases h : e.layerId ∈ ids
      · simp only [keepNotIn, if_pos h]
        exact ih.trans (List.sublist_cons_self e rest)
      · simp only [keepNotIn, if_neg h]
        exact ih.cons₂ e

theorem mem_keepNotIn {ids : List Nat} {st : ControlState} {e : ControlEntry} :
    e ∈ keepNotIn ids st ↔ e ∈ st ∧ e.layerId ∉ ids := by
  induction st with
  | nil => simp [keepNotIn]
  | cons e0 rest ih =>
      by_cases h : e0.layerId ∈ ids
      · simp only [keepNotIn, if_pos h, ih, List.mem_cons]
        constructor
        · rintro ⟨h1, h2⟩; exact ⟨Or.inr h1, h2⟩
        · rintro ⟨h1 | h1, h2⟩
          · subst h1; exact absurd h h2
          · exact ⟨h1, h2⟩
      · simp only [keepNotIn, if_neg h, List.mem_cons, ih]
        constructor
        · rintro (h1 | ⟨h1, h2⟩)
          · subst h1; exact ⟨Or.inl rfl, h⟩
          · exact ⟨Or.inr h1, h2⟩
        · rintro ⟨h1 | h1, h2⟩
          · exact Or.inl h1
          · exact Or.inr ⟨h1, h2⟩

theorem keepNotIn_eq_self {ids : List Nat} {st : ControlState}
    (h : ∀ e ∈ st, e.layerId ∉ ids) : keepNotIn ids st = st := by
  induction st with
  | nil => rfl
  | cons e rest ih =>
      simp only [keepNotIn, if_neg (h e (List.mem_cons_self e rest))]
      exact congrArg _ (ih fun e' he' => h e' (List.mem_cons_of_mem _ he'))

theorem keepNotIn_append (ids : List Nat) (a b : ControlState) :
    keepNotIn ids (a ++ b) = keepNotIn ids a ++ keepNotIn ids b := by
  induction a with
  | nil => rfl
  | cons e rest ih =>
      by_cases h : e.layerId ∈ ids <;> simp [keepNotIn, h, ih]

theorem keepNotIn_comp (ids1 ids2 : List Nat) (st : ControlState) :
    keepNotIn ids2 (keepNotIn ids1 st) = keepNotIn (ids1 ++ ids2) st := by
  induction st with
  | nil => rfl
  | cons e rest ih =>
      by_cases h1 : e.layerId ∈ ids1
      · simp [keepNotIn, h1, ih, List.mem_append]
      · by_cases h2 : e.layerId ∈ ids2 <;>
          simp [keepNotIn, h1, h2, ih, List.mem_append]

theorem keepNotIn_idem (ids : List Nat) (st : ControlState) :
    keepNotIn ids (keepNotIn ids st) = keepNotIn ids st :=
  keepNotIn_eq_self fun _ he => (mem_keepNotIn.mp he).2

theorem entryIds_append (a b : ControlState) :
    entryIds (a ++ b) = entryIds a ++ entryIds b := List.map_append _ a b

theorem nodup_entryIds_keepNotIn {ids : List Nat} {st : ControlState}
    (h : (entryIds st).Nodup) : (entryIds (keepNotIn ids st)).Nodup :=
  List.Nodup.sublist ((keepNotIn_sublist ids st).map ControlEntry.layerId) h

theorem removeLayerEntry_of_nodup {st : ControlState} {i : Nat}
    (h : (entryIds st).Nodup) : removeLayerEntry st i = keepNotIn [i] st := by
  induction st with
  | nil => rfl
  | cons e rest ih =>
      simp only [entryIds, List.map_cons, List.nodup_cons] at h
      by_cases he : e.layerId = i
      · subst he
        simp only [removeLayerEntry, if_pos rfl, keepNotIn, List.mem_singleton, if_pos rfl]
        refine (keepNotIn_eq_self ?_).symm
        intro e' he' hmem
        exact h.1 (by simpa [List.mem_singleton.mp hmem] using List.mem_map_of_mem ControlEntry.layerId he')
      · simp only [removeLayerEntry, if_neg he, keepNotIn, List.mem_singleton, if_neg he]
        exact congrArg _ (ih h.2)

theorem removeEntries_of_nodup {rs : List Renderable} :
    ∀ {st : ControlState}, (entryIds st).Nodup →
      removeEntries st rs = keepNotIn (rs.map Renderable.rid) st := by
  induction rs with
  | nil =>
      intro st _
      exact (keepNotIn_eq_self (by simp)).symm
  | cons r rs ih =>
      intro st h
      have h1 : removeEntries st (r :: rs) = removeEntries (removeLayerEntry st r.rid) rs := rfl
      rw [h1, removeLayerEntry_of_nodup h, ih (nodup_entryIds_keepNotIn h), keepNotIn_comp]
      rfl

theorem addEntries_eq (es : List (String × Renderable)) :
    ∀ st : ControlState, addEntries st es = st ++ mkOvEntries es := by
  induction es with
  | nil => intro st; simp [addEntries, mkOvEntries]
  | cons p rest ih =>
      intro st
      obtain ⟨label, r⟩ := p
      simp [addEntries, addOverlayEntry, ih, mkOvEntries]

theorem addBaseLayersToControl_eq (bases : StrMap Renderable) :
    ∀ st : ControlState, addBaseLayersToControl bases st = st ++ mkBaseCtrlEntries bases := by
  induction bases with
  | nil => intro st; simp [addBaseLayersToControl, mkBaseCtrlEntries]
  | cons p rest ih =>
      intro st
      obtain ⟨label, r⟩ := p
      simp [addBaseLayersToControl, addBaseLayerEntry, ih, mkBaseCtrlEntries]

theorem updateOverlays_eq {ov : StrMap (StrMap Renderable)} {t : String}
    {st : ControlState} (h : (entryIds st).Nodup) :
    updateOverlays ov t st =
      keepNotIn (overlayIds ov) st ++ mkOvEntries (entriesForLevel ov t) := by
  unfold updateOverlays
  rw [addEntries_eq, removeEntries_of_nodup h]
  rfl

theorem overlayEntriesOf_append (a b : ControlState) :
    overlayEntriesOf (a ++ b) = overlayEntriesOf a ++ overlayEntriesOf b :=
  List.filter_append a b

theorem baseEntriesOf_append (a b : ControlState) :
    baseEntriesOf (a ++ b) = baseEntriesOf a ++ baseEntriesOf b :=
  List.filter_append a b

theorem overlayEntriesOf_mkOvEntries (es : List (String × Renderable)) :
    overlayEntriesOf (mkOvEntries es) = mkOvEntries es := by
  induction es with
  | nil => rfl
  | cons p rest ih => simp [mkOvEntries, overlayEntriesOf, List.filter] at ih ⊢; exact ih

theorem baseEntriesOf_mkOvEntries (es : List (String × Renderable)) :
    baseEntriesOf (mkOvEntries es) = [] := by
  induction es with
  | nil => rfl
  | cons p rest ih => simpa [mkOvEntries, baseEntriesOf, List.filter] using ih

theorem overlayEntriesOf_mkBaseCtrlEntries (bases : StrMap Renderable) :
    overlayEntriesOf (mkBaseCtrlEntries bases) = [] := by
  induction bases with
  | nil => rfl
  | cons p rest ih => simpa [mkBaseCtrlEntries, overlayEntriesOf, List.filter] using ih

theorem overlayEntriesOf_keepNotIn_nil {ids : List Nat} {st : ControlState}
    (h : ∀ e ∈ st, e.isOverlay = true → e.layerId ∈ ids) :
    overlayEntriesOf (keepNotIn ids st) = [] := by
  induction st with
  | nil => rfl
  | cons e rest ih =>
      have ih' := ih fun e' he' => h e' (List.mem_cons_of_mem _ he')
      by_cases hid : e.layerId ∈ ids
      · simpa [keepNotIn, hid] using ih'
      · have hov : e.isOverlay = false := by
          cases hov : e.isOverlay
          · rfl
          · exact absurd (h e (List.mem_cons_self e rest) hov) hid
        simpa [keepNotIn, hid, overlayEntriesOf, List.filter, hov] using ih'

theorem baseEntriesOf_keepNotIn {ids : List Nat} {st : ControlState}
    (h : ∀ e ∈ st, e.isOverlay = false → e.layerId ∉ ids) :
    baseEntriesOf (keepNotIn ids st) = baseEntriesOf st := by
  induction st with
  | nil => rfl
  | cons e rest ih =>
      have ih' := ih fun e' he' => h e' (List.mem_cons_of_mem _ he')
      cases hov : e.isOverlay
      · have hid : e.layerId ∉ ids := h e (List.mem_cons_self e rest) hov
        simp only [keepNotIn, if_neg hid]
        simpa [baseEntriesOf, List.filter, hov] using ih'
      · by_cases hid : e.layerId ∈ ids
        · simp only [keepNotIn, if_pos hid]
          simpa [baseEntriesOf, List.filter, hov] using ih'
        · simp only [keepNotIn, if_neg hid]
          simpa [baseEntriesOf, List.filter, hov] using ih'

theorem snd_sublist_allOverlayRenderables {ov : StrMap (StrMap Renderable)}
    {t : String} {lm : StrMap Renderable} (h : strGet ov t = some lm) :
    List.Sublist (lm.map Prod.snd) (allOverlayRenderables ov) := by
  induction ov with
  | nil => simp [strGet] at h
  | cons p rest ih =>
      obtain ⟨k, lm0⟩ := p
      by_cases hk : k = t
      · subst hk
        have h' : lm0 = lm := by simpa [strGet] using h
        subst h'
        exact List.sublist_append_left _ _
      · simp only [strGet, if_neg hk] at h
        exact (ih h).trans (List.sublist_append_right _ _)

theorem rid_entriesForLevel_mem {ov : StrMap (StrMap Renderable)} {t : String}
    {p : String × Renderable} (h : p ∈ entriesForLevel ov t) :
    p.2.rid ∈ overlayIds ov := by
  unfold entriesForLevel at h
  cases hg : strGet ov t with
  | none => rw [hg] at h; simp at h
  | some lm =>
      rw [hg] at h
      simp only [Option.getD_some] at h
      exact List.mem_map_of_mem Renderable.rid
        ((snd_sublist_allOverlayRenderables hg).subset (List.mem_map_of_mem Prod.snd h))

theorem nodup_entryIds_mkOvEntries {ov : StrMap (StrMap Renderable)} {t : String}
    (h : (overlayIds ov).Nodup) :
    (entryIds (mkOvEntries (entriesForLevel ov t))).Nodup := by
  unfold entriesForLevel
  cases hg : strGet ov t with
  | none => simp [mkOvEntries, entryIds]
  | some lm =>
      have hsub : List.Sublist ((lm.map Prod.snd).map Renderable.rid) (overlayIds ov) :=
        (snd_sublist_allOverlayRenderables hg).map Renderable.rid
      have heq : entryIds (mkOvEntries lm) = (lm.map Prod.snd).map Renderable.rid := by
        simp [entryIds, mkOvEntries, List.map_map]
      simpa [heq] using List.Nodup.sublist hsub h

theorem keepNotIn_mkOvEntries_nil {ids : List Nat} {es : List (String × Renderable)}
    (h : ∀ p ∈ es, p.2.rid ∈ ids) : keepNotIn ids (mkOvEntries es) = [] := by
  induction es with
  | nil => rfl
  | cons p rest ih =>
      have hp : p.2.rid ∈ ids := h p (List.mem_cons_self p rest)
      simpa [mkOvEntries, keepNotIn, hp] using ih fun q hq => h q (List.mem_cons_of_mem _ hq)

theorem nodup_entryIds_updateOverlays {ov : StrMap (StrMap Renderable)} {t : String}
    {st : ControlState} (h1 : (entryIds st).Nodup) (h2 : (overlayIds ov).Nodup) :
    (entryIds (updateOverlays ov t st)).Nodup := by
  rw [updateOverlays_eq h1, entryIds_append]
  refine List.Nodup.append (nodup_entryIds_keepNotIn h1) (nodup_entryIds_mkOvEntries h2) ?_
  intro x hx hx2
  simp only [entryIds, List.mem_map] at hx
  obtain ⟨e, he, rfl⟩ := hx
  have : e.layerId ∉ overlayIds ov := (mem_keepNotIn.mp he).2
  apply this
  simp only [entryIds, mkOvEntries, List.map_map, List.mem_map] at hx2
  obtain ⟨p, hp, hpe⟩ := hx2
  have hmem := rid_entriesForLevel_mem hp
  have hpe' : p.2.rid = e.layerId := hpe
  rwa [hpe'] at hmem

/-- Claim C4: `sync` (`_updateOverlays`) is idempotent.  For every level name
and every control state whose registered layers carry pairwise-distinct
Leaflet stamps (stamps are unique per layer object, and the built overlays
map likewise holds pairwise-distinct layer objects), running the
synchronizer twice in a row equals running it once. -/
theorem claimC4_idempotent (ov : StrMap (StrMap Renderable)) (L : String)
    (st : ControlState) (h1 : (entryIds st).Nodup) (h2 : (overlayIds ov).Nodup) :
    updateOverlays ov L (updateOverlays ov L st) = updateOverlays ov L st := by
  have hN2 := nodup_entryIds_updateOverlays (t := L) h1 h2
  rw [updateOverlays_eq hN2, updateOverlays_eq h1, keepNotIn_append, keepNotIn_idem,
      keepNotIn_mkOvEntries_nil (fun p hp => rid_entriesForLevel_mem hp), List.append_nil]

theorem claimC4_witness :
    (entryIds st0).Nodup ∧ (overlayIds ov0).Nodup ∧
      updateOverlays ov0 "L1" (updateOverlays ov0 "L1" st0) = updateOverlays ov0 "L1" st0 :=
  ⟨by decide, by decide, claimC4_idempotent ov0 "L1" st0 (by decide) (by decide)⟩

/-- Claim C1: after `sync(L1)` then `sync(L2)`, the control's overlay entries
are exactly the renderables of `Overlays[L2]`, keyed by their display labels,
with no residual entries from `L1` — `sync` clears every level's overlay
entries unconditionally before re-adding the target's.  Hypotheses: distinct
stamps, and every overlay entry already on the control belongs to the built
overlays map (the states the engine itself reaches). -/
theorem claimC1_sync_switch (ov : StrMap (StrMap Renderable)) (L1 L2 : String)
    (st : ControlState) (_hne : L1 ≠ L2)
    (h1 : (entryIds st).Nodup) (h2 : (overlayIds ov).Nodup)
    (hcov : ∀ e ∈ st, e.isOverlay = true → e.layerId ∈ overlayIds ov) :
    overlayEntriesOf (updateOverlays ov L2 (updateOverlays ov L1 st)) =
      mkOvEntries (entriesForLevel ov L2) := by
  have hN2 := nodup_entryIds_updateOverlays (t := L1) h1 h2
  rw [updateOverlays_eq hN2, updateOverlays_eq h1, keepNotIn_append, keepNotIn_idem,
      keepNotIn_mkOvEntries_nil (fun p hp => rid_entriesForLevel_mem hp), List.append_nil,
      overlayEntriesOf_append, overlayEntriesOf_keepNotIn_nil hcov,
      overlayEntriesOf_mkOvEntries, List.nil_append]

theorem claimC1_witness :
    ("L1" : String) ≠ "L2" ∧ (entryIds st0).Nodup ∧ (overlayIds ov0).Nodup ∧
      (∀ e ∈ st0, e.isOverlay = true → e.layerId ∈ overlayIds ov0) ∧
      overlayEntriesOf (updateOverlays ov0 "L2" (updateOverlays ov0 "L1" st0)) =
        mkOvEntries (entriesForLevel ov0 "L2") :=
  ⟨by decide, by decide, by decide, by decide,
    claimC1_sync_switch ov0 "L1" "L2" st0 (by decide) (by decide) (by decide) (by decide)⟩

/-- Claim C8: `sync(targetLevelName)` for a level with no entry in `Overlays`
does not fail: the full clear (step 1) still runs, and step 2 registers
nothing, leaving zero overlay entries on the control. -/
theorem claimC8_absent_level (ov : StrMap (StrMap Renderable)) (L : String)
    (st : ControlState) (habs : strGet ov L = none) (h1 : (entryIds st).Nodup)
    (hcov : ∀ e ∈ st, e.isOverlay = true → e.layerId ∈ overlayIds ov) :
    updateOverlays ov L st = removeEntries st (allOverlayRenderables ov) ∧
      overlayEntriesOf (updateOverlays ov L st) = [] := by
  constructor
  · unfold updateOverlays
    rw [addEntries_eq]
    simp [entriesForLevel, habs, mkOvEntries]
  · rw [updateOverlays_eq h1]
    simp only [entriesForLevel, habs, Option.getD_none]
    have hnil : mkOvEntries ([] : List (String × Renderable)) = [] := rfl
    rw [hnil, List.append_nil]
    exact overlayEntriesOf_keepNotIn_nil hcov

theorem claimC8_witness :
    strGet ov0 "L9" = none ∧ (entryIds st0).Nodup ∧
      (∀ e ∈ st0, e.isOverlay = true → e.layerId ∈ overlayIds ov0) ∧
      (updateOverlays ov0 "L9" st0 = removeEntries st0 (allOverlayRenderables ov0) ∧
        overlayEntriesOf (updateOverlays ov0 "L9" st0) = []) :=
  ⟨by rfl, by decide, by decide,
    claimC8_absent_level ov0 "L9" st0 (by rfl) (by decide) (by decide)⟩

/-- Claim C9: `sync` (`_updateOverlays`) never adds, removes or relabels a
base-layer entry — for every level name and every control state whose
base-layer entries carry stamps of layers outside the overlays map (base
layer groups and overlay renderables are distinct Leaflet objects), the
base-layer entry list is unchanged. -/
theorem claimC9_base_frame (ov : StrMap (StrMap Renderable)) (L : String)
    (st : ControlState) (h1 : (entryIds st).Nodup)
    (hbase : ∀ e ∈ st, e.isOverlay = false → e.layerId ∉ overlayIds ov) :
    baseEntriesOf (updateOverlays ov L st) = baseEntriesOf st := by
  rw [updateOverlays_eq h1, baseEntriesOf_append, baseEntriesOf_mkOvEntries,
      List.append_nil, baseEntriesOf_keepNotIn hbase]

theorem claimC9_witness :
    (entryIds st0).Nodup ∧
      (∀ e ∈ st0, e.isOverlay = false → e.layerId ∉ overlayIds ov0) ∧
      baseEntriesOf (updateOverlays ov0 "L2" st0) = baseEntriesOf st0 :=
  ⟨by decide, by decide, claimC9_base_frame ov0 "L2" st0 (by decide) (by decide)⟩

theorem removeLayerEntry_sublist (st : ControlState) (i : Nat) :
    List.Sublist (removeLayerEntry st i) st := by
  induction st with
  | nil => simp [removeLayerEntry]
  | cons e rest ih =>
      by_cases h : e.layerId = i
      · simp only [removeLayerEntry, if_pos h]
        exact List.sublist_cons_self e rest
      · simp only [removeLayerEntry, if_neg h]
        exact ih.cons₂ e

theorem removeEntries_sublist (rs : List Renderable) :
    ∀ st : ControlState, List.Sublist (removeEntries st rs) st := by
  induction rs with
  | nil => intro st; exact List.Sublist.refl st
  | cons r rest ih =>
      intro st
      exact (ih (removeLayerEntry st r.rid)).trans (removeLayerEntry_sublist st r.rid)

theorem overlayEntriesOf_nil_of_sublist {st st' : ControlState}
    (h : overlayEntriesOf st = []) (hsub : List.Sublist st' st) :
    overlayEntriesOf st' = [] := by
  have h2 : List.Sublist (st'.filter (fun e => e.isOverlay))
      (st.filter (fun e => e.isOverlay)) := hsub.filter _
  unfold overlayEntriesOf at h ⊢
  rw [h] at h2
  exact List.sublist_nil.mp h2

theorem overlayEntriesOf_updateOverlays_baseonly {ov : StrMap (StrMap Renderable)}
    {t : String} {st : ControlState} (h : overlayEntriesOf st = []) :
    overlayEntriesOf (updateOverlays ov t st) = mkOvEntries (entriesForLevel ov t) := by
  unfold updateOverlays
  rw [addEntries_eq, overlayEntriesOf_append, overlayEntriesOf_mkOvEntries,
      overlayEntriesOf_nil_of_sublist h (removeEntries_sublist _ st), List.nil_append]

theorem strGet_some_mem_keys {α : Type} {a : StrMap α} {k : String} {v : α}
    (h : strGet a k = some v) : k ∈ strKeys a := by
  by_contra hmem
  rw [(strGet_eq_none_iff a k).mpr hmem] at h
  exact Option.noConfusion h

theorem findMainBaseLayer_eq (bases : StrMap Renderable) (ml : String) :
    findMainBaseLayer bases ml = (strGet bases ml).map (fun g => (g, ml)) := by
  induction bases with
  | nil => rfl
  | cons p rest ih =>
      obtain ⟨k, g0⟩ := p
      by_cases hk : k = ml
      · subst hk
        simp [findMainBaseLayer, strGet]
      · simp [findMainBaseLayer, hk, strGet, ih]

theorem initializeWebmap_fields {pg : PathGetter} {cfg : Config} {mapName : String}
    {m : MapDesc} {ws : WebmapState} (hok : initializeWebmap pg cfg mapName m = .ok ws) :
    ws.baseLayers = getBaseLayersForMap pg cfg mapName m 0 ∧
    getOverlays pg cfg mapName m (basesSize m.levels) = .ok ws.overlays ∧
    ((∃ g, strGet ws.baseLayers m.mainLevel = some g ∧
        ws.mainBase = some (g, m.mainLevel) ∧ ws.viewLayerIds = [g.rid] ∧
        ws.control = updateOverlays ws.overlays m.mainLevel
          (addBaseLayersToControl ws.baseLayers [])) ∨
      (strGet ws.baseLayers m.mainLevel = none ∧ ws.mainBase = none ∧
        ws.viewLayerIds = [] ∧
        ws.control = addBaseLayersToControl ws.baseLayers [])) := by
  unfold initializeWebmap at hok
  split at hok
  · exact absurd hok (by simp)
  · rename_i ov hov
    simp only [] at hok
    rw [findMainBaseLayer_eq] at hok
    cases hget : strGet (getBaseLayersForMap pg cfg mapName m 0) m.mainLevel with
    | some g =>
        rw [hget] at hok
        have hws := Except.ok.inj hok
        subst hws
        exact ⟨rfl, hov, Or.inl ⟨g, hget, rfl, rfl, rfl⟩⟩
    | none =>
        rw [hget] at hok
        have hws := Except.ok.inj hok
        subst hws
        exact ⟨rfl, hov, Or.inr ⟨hget, rfl, rfl, rfl⟩⟩

theorem baseLayersLoop_eq (pg : PathGetter) (cfg : Config) (mapName : String) (m : MapDesc) :
    ∀ (entries : List (String × MapLevel)) (acc : StrMap Renderable) (c : Nat),
      (entries.map Prod.fst).Nodup →
      (∀ k ∈ entries.map Prod.fst, k ∉ strKeys acc) →
      baseLayersLoop pg cfg mapName m entries acc c =
        acc ++ expBaseEntries pg cfg mapName m entries c := by
  intro entries
  induction entries with
  | nil => intro acc c _ _; simp [baseLayersLoop, expBaseEntries]
  | cons p rest ih =>
      intro acc c hN hdisj
      obtain ⟨k, lv⟩ := p
      simp only [List.map_cons, List.nodup_cons] at hN
      have hkfresh : k ∉ strKeys acc := hdisj k (by simp)
      have hstep : baseLayersLoop pg cfg mapName m ((k, lv) :: rest) acc c =
          baseLayersLoop pg cfg mapName m rest
            (strSet acc k (mkLevelBase pg cfg mapName m k lv c)) (c + levelBaseSize lv) := rfl
      rw [hstep, strSet_fresh acc k _ hkfresh, ih _ _ hN.2 ?_]
      · simp [expBaseEntries]
      · intro k' hk'
        have hkeys : strKeys (acc ++ [(k, mkLevelBase pg cfg mapName m k lv c)]) =
            strKeys acc ++ [k] := by simp [strKeys]
        rw [hkeys]
        simp only [List.mem_append, List.mem_singleton]
        rintro (h1 | h2)
        · exact hdisj k' (List.mem_cons_of_mem _ hk') h1
        · subst h2; exact hN.1 hk'

theorem strKeys_expBaseEntries (pg : PathGetter) (cfg : Config) (mapName : String)
    (m : MapDesc) : ∀ (entries : List (String × MapLevel)) (c : Nat),
    strKeys (expBaseEntries pg cfg mapName m entries c) = entries.map Prod.fst := by
  intro entries
  induction entries with
  | nil => intro c; rfl
  | cons p rest ih =>
      intro c
      obtain ⟨k, lv⟩ := p
      simp [expBaseEntries, strKeys] at ih ⊢
      exact ih _

theorem getBaseLayersForMap_eq {pg : PathGetter} {cfg : Config} {mapName : String}
    {m : MapDesc} (hN : (m.levels.map Prod.fst).Nodup) (c : Nat) :
    getBaseLayersForMap pg cfg mapName m c = expBaseEntries pg cfg mapName m m.levels c := by
  unfold getBaseLayersForMap
  rw [baseLayersLoop_eq pg cfg mapName m m.levels [] c hN (by simp [strKeys])]
  simp

theorem overlaysLoop_keys (pg : PathGetter) (cfg : Config) (mapName : String) (m : MapDesc) :
    ∀ (entries : List (String × MapLevel)) (acc : StrMap (StrMap Renderable)) (c : Nat)
      (ov : StrMap (StrMap Renderable)),
      (entries.map Prod.fst).Nodup →
      (∀ k ∈ entries.map Prod.fst, k ∉ strKeys acc) →
      overlaysLoop pg cfg mapName m entries acc c = .ok ov →
      strKeys ov = strKeys acc ++ entries.map Prod.fst := by
  intro entries
  induction entries with
  | nil =>
      intro acc c ov _ _ hok
      have hacc : acc = ov := Except.ok.inj hok
      subst hacc
      simp
  | cons p rest ih =>
      intro acc c ov hN hdisj hok
      obtain ⟨k, lv⟩ := p
      simp only [List.map_cons, List.nodup_cons] at hN
      unfold overlaysLoop at hok
      cases hll : overlayLevelLoop pg cfg mapName m k (m.layers.drop 1) [] c with
      | error e =>
          rw [hll] at hok
          exact absurd hok (by simp)
      | ok lm =>
          rw [hll] at hok
          have hok' : overlaysLoop pg cfg mapName m rest (strSet acc k lm)
              (c + (m.layers.drop 1).length) = .ok ov := hok
          have hkfresh : k ∉ strKeys acc := hdisj k (by simp)
          rw [strSet_fresh acc k lm hkfresh] at hok'
          have hres := ih (acc ++ [(k, lm)]) _ ov hN.2 ?_ hok'
          · rw [hres]
            simp [strKeys]
          · intro k' hk'
            have hkeys : strKeys (acc ++ [(k, lm)]) = strKeys acc ++ [k] := by simp [strKeys]
            rw [hkeys]
            simp only [List.mem_append, List.mem_singleton]
            rintro (h1 | h2)
            · exact hdisj k' (List.mem_cons_of_mem _ hk') h1
            · subst h2; exact hN.1 hk'

/-- Claim C2: after a successful `initialize()`, the key sets of
`BaseLayers`, `Overlays` and the description's `levels` object coincide (as
the `levels` object of a `MapDescription` is a JavaScript object, its keys
are pairwise distinct, which is the `hN` hypothesis). -/
theorem claimC2_key_sets (pg : PathGetter) (cfg : Config) (mapName : String)
    (m : MapDesc) (ws : WebmapState) (hN : (m.levels.map Prod.fst).Nodup)
    (hok : initializeWebmap pg cfg mapName m = .ok ws) :
    strKeys ws.baseLayers = m.levels.map Prod.fst ∧
      strKeys ws.overlays = m.levels.map Prod.fst := by
  obtain ⟨hb, hov, _⟩ := initializeWebmap_fields hok
  constructor
  · rw [hb, getBaseLayersForMap_eq hN, strKeys_expBaseEntries]
  · have := overlaysLoop_keys pg cfg mapName m m.levels [] (basesSize m.levels) ws.overlays
      hN (by simp [strKeys]) hov
    simpa [strKeys] using this

theorem claimC2_witness :
    (map0.levels.map Prod.fst).Nodup ∧
      (strKeys ws0.baseLayers = map0.levels.map Prod.fst ∧
        strKeys ws0.overlays = map0.levels.map Prod.fst) :=
  ⟨by decide, claimC2_key_sets pg0 cfg0 "station" map0 ws0 (by decide) (by rfl)⟩

/-- Claim C3: after a successful `initialize()`, if `mainLevel` is the name
of a built base layer then exactly that base layer group is added to the map
view and the control's overlay entries are exactly `Overlays[mainLevel]`;
if `mainLevel` matches no built level, no layer is added to the view and no
overlay entry is registered.  The final conjunct records that success of
`initialize()` is exactly success of the overlay build — resolving
`mainLevel` can never raise. -/
theorem claimC3_main_level (pg : PathGetter) (cfg : Config) (mapName : String)
    (m : MapDesc) (ws : WebmapState)
    (hok : initializeWebmap pg cfg mapName m = .ok ws) :
    (m.mainLevel ∈ strKeys ws.baseLayers →
      ws.viewLayerIds = ((strGet ws.baseLayers m.mainLevel).map Renderable.rid).toList ∧
      overlayEntriesOf ws.control = mkOvEntries (entriesForLevel ws.overlays m.mainLevel)) ∧
    (m.mainLevel ∉ strKeys ws.baseLayers →
      ws.viewLayerIds = [] ∧ overlayEntriesOf ws.control = []) ∧
    exceptOk (getOverlays pg cfg mapName m (basesSize m.levels)) = true := by
  obtain ⟨hb, hov, hbr⟩ := initializeWebmap_fields hok
  have hbase0 : overlayEntriesOf (addBaseLayersToControl ws.baseLayers []) = [] := by
    rw [addBaseLayersToControl_eq, List.nil_append, overlayEntriesOf_mkBaseCtrlEntries]
  refine ⟨?_, ?_, by rw [hov]; rfl⟩
  · intro hmem
    rcases hbr with ⟨g, hget, _, hview, hctrl⟩ | ⟨hget, _, _, _⟩
    · rw [hview, hget, hctrl, overlayEntriesOf_updateOverlays_baseonly hbase0]
      exact ⟨rfl, rfl⟩
    · exact absurd ((strGet_eq_none_iff _ _).mp hget) (by simpa using hmem)
  · intro hmem
    rcases hbr with ⟨g, hget, _, _, _⟩ | ⟨_, _, hview, hctrl⟩
    · exact absurd (strGet_some_mem_keys hget) hmem
    · rw [hview, hctrl, hbase0]
      exact ⟨rfl, rfl⟩

theorem claimC3_witness :
    initializeWebmap pg0 cfg0 "station" map0 = .ok ws0 ∧
      map0.mainLevel ∈ strKeys ws0.baseLayers ∧
      (ws0.viewLayerIds = ((strGet ws0.baseLayers map0.mainLevel).map Renderable.rid).toList ∧
        overlayEntriesOf ws0.control = mkOvEntries (entriesForLevel ws0.overlays map0.mainLevel)) :=
  ⟨by rfl, by decide,
    (claimC3_main_level pg0 cfg0 "station" map0 ws0 (by rfl)).1 (by decide)⟩

theorem displaysOf_cons_some {cfg : Config} {n : String} {lc : LayerCfg}
    (rest : List String) (h : strGet cfg.layers n = some lc) :
    displaysOf cfg (n :: rest) = lc.display :: displaysOf cfg rest := by
  simp [displaysOf, List.filterMap_cons, h]

theorem overlayLevelLoop_ok_isSome (pg : PathGetter) (cfg : Config) (mapName : String)
    (m : MapDesc) (L : String) :
    ∀ (names : List String) (acc : StrMap Renderable) (c : Nat) (lm : StrMap Renderable),
      overlayLevelLoop pg cfg mapName m L names acc c = .ok lm →
      ∀ n ∈ names, (strGet cfg.layers n).isSome = true := by
  intro names
  induction names with
  | nil => intro acc c lm _ n hn; simp at hn
  | cons n0 rest ih =>
      intro acc c lm hok n hn
      unfold overlayLevelLoop at hok
      cases hcl : strGet cfg.layers n0 with
      | none => rw [hcl] at hok; exact absurd hok (by simp)
      | some lc =>
          rw [hcl] at hok
          have hok' : overlayLevelLoop pg cfg mapName m L rest
              (strSet acc lc.display (mkOverlayVisual pg cfg mapName m L n0 c)) (c + 1) =
              .ok lm := hok
          rcases List.mem_cons.mp hn with h | h
          · subst h; simp [hcl]
          · exact ih _ _ _ hok' n h

theorem overlayLevelLoop_eq (pg : PathGetter) (cfg : Config) (mapName : String)
    (m : MapDesc) (L : String) :
    ∀ (names : List String) (acc : StrMap Renderable) (c : Nat) (lm : StrMap Renderable),
      (displaysOf cfg names).Nodup →
      (∀ k ∈ strKeys acc, k ∉ displaysOf cfg names) →
      overlayLevelLoop pg cfg mapName m L names acc c = .ok lm →
      lm = acc ++ expLevelEntries pg cfg mapName m L names c := by
  intro names
  induction names with
  | nil =>
      intro acc c lm _ _ hok
      have hacc : acc = lm := Except.ok.inj hok
      subst hacc
      simp [expLevelEntries]
  | cons n rest ih =>
      intro acc c lm hd hacc hok
      unfold overlayLevelLoop at hok
      cases hcl : strGet cfg.layers n with
      | none => rw [hcl] at hok; exact absurd hok (by simp)
      | some lc =>
          rw [hcl] at hok
          have hok' : overlayLevelLoop pg cfg mapName m L rest
              (strSet acc lc.display (mkOverlayVisual pg cfg mapName m L n c)) (c + 1) =
              .ok lm := hok
          rw [displaysOf_cons_some rest hcl] at hd hacc
          simp only [List.nodup_cons] at hd
          have hfresh : lc.display ∉ strKeys acc := fun hmem => hacc _ hmem (by simp)
          rw [strSet_fresh acc lc.display _ hfresh] at hok'
          have hres := ih _ _ lm hd.2 ?_ hok'
          · rw [hres]
            simp [expLevelEntries, hcl]
          · intro k hk
            have hkeys : strKeys (acc ++ [(lc.display, mkOverlayVisual pg cfg mapName m L n c)]) =
                strKeys acc ++ [lc.display] := by simp [strKeys]
            rw [hkeys] at hk
            simp only [List.mem_append, List.mem_singleton] at hk
            rcases hk with h1 | h2
            · exact fun hmem => hacc _ h1 (List.mem_cons_of_mem _ hmem)
            · subst h2; exact hd.1

theorem expLevelEntries_length (pg : PathGetter) (cfg : Config) (mapName : String)
    (m : MapDesc) (L : String) :
    ∀ (names : List String) (c : Nat),
      (∀ n ∈ names, (strGet cfg.layers n).isSome = true) →
      (expLevelEntries pg cfg mapName m L names c).length = names.length := by
  intro names
  induction names with
  | nil => intro c _; rfl
  | cons n rest ih =>
      intro c hall
      cases hcl : strGet cfg.layers n with
      | none =>
          have := hall n (by simp)
          rw [hcl] at this
          simp at this
      | some lc =>
          simp only [expLevelEntries, hcl, List.length_cons]
          rw [ih _ fun n' hn' => hall n' (List.mem_cons_of_mem _ hn')]

theorem overlaysLoop_lengths (pg : PathGetter) (cfg : Config) (mapName : String)
    (m : MapDesc) :
    ∀ (entries : List (String × MapLevel)) (acc : StrMap (StrMap Renderable)) (c : Nat)
      (ov : StrMap (StrMap Renderable)),
      (displaysOf cfg (m.layers.drop 1)).Nodup →
      (∀ p ∈ acc, p.2.length = (m.layers.drop 1).length) →
      overlaysLoop pg cfg mapName m entries acc c = .ok ov →
      ∀ p ∈ ov, p.2.length = (m.layers.drop 1).length := by
  intro entries
  induction entries with
  | nil =>
      intro acc c ov _ hinv hok
      have hacc : acc = ov := Except.ok.inj hok
      subst hacc
      exact hinv
  | cons p rest ih =>
      intro acc c ov hd hinv hok
      obtain ⟨k, lv⟩ := p
      unfold overlaysLoop at hok
      cases hll : overlayLevelLoop pg cfg mapName m k (m.layers.drop 1) [] c with
      | error e => rw [hll] at hok; exact absurd hok (by simp)
      | ok lm =>
          rw [hll] at hok
          have hok' : overlaysLoop pg cfg mapName m rest (strSet acc k lm)
              (c + (m.layers.drop 1).length) = .ok ov := hok
          have hlm : lm.length = (m.layers.drop 1).length := by
            have hchar := overlayLevelLoop_eq pg cfg mapName m k (m.layers.drop 1) [] c lm
              hd (by simp [strKeys]) hll
            have hall := overlayLevelLoop_ok_isSome pg cfg mapName m k (m.layers.drop 1) [] c lm hll
            rw [hchar, List.nil_append, expLevelEntries_length pg cfg mapName m k _ c hall]
          refine ih _ _ ov hd ?_ hok'
          intro q hq
          rcases mem_strSet hq with h1 | h1
          · exact hinv q h1
          · rw [h1]
            exact hlm

/-- Claim C5 (amended): when `_getOverlays` succeeds and the display labels
configured for `layers[1:]` are pairwise distinct, every level's overlay
object has exactly `|layers| - 1` entries (zero when `layers` has fewer than
2 entries), independent of the level's underlays. -/
theorem claimC5_overlay_counts (pg : PathGetter) (cfg : Config) (mapName : String)
    (m : MapDesc) (c : Nat) (ov : StrMap (StrMap Renderable))
    (hd : (displaysOf cfg (m.layers.drop 1)).Nodup)
    (hok : getOverlays pg cfg mapName m c = .ok ov) :
    ∀ p ∈ ov, p.2.length = m.layers.length - 1 := by
  intro p hp
  unfold getOverlays at hok
  have h1 := overlaysLoop_lengths pg cfg mapName m m.levels [] c ov hd (by simp) hok p hp
  rw [h1]
  exact List.length_drop 1 m.layers

theorem claimC5_witness :
    (displaysOf cfg0 (map0.layers.drop 1)).Nodup ∧
      (∀ p ∈ ov0, p.2.length = map0.layers.length - 1) :=
  ⟨by decide,
    claimC5_overlay_counts pg0 cfg0 "station" map0 (basesSize map0.levels) ov0
      (by decide) (by rfl)⟩

theorem claimC5_counterexample :
    levelLengthsOf (getOverlays pg0 cfg5 "m" map5 0) = some [("L", 1)] ∧
      map5.layers.length - 1 = 2 ∧ (1 : Nat) ≠ 2 :=
  ⟨by rfl, by rfl, by decide⟩

theorem cfgTileSize_some_iff {cfg : Config} {ts : Nat} :
    cfgTileSize cfg = some ts ↔ cfg.layerSettings = some (.tiles ts) := by
  unfold cfgTileSize
  cases hls : cfg.layerSettings with
  | none => simp
  | some ls => cases ls <;> simp

theorem tileOk_mkUnderlay {pg : PathGetter} {cfg : Config} {mapName : String}
    {m : MapDesc} {ts : Nat} (h : cfg.layerSettings = some (.tiles ts))
    (u : String) (c : Nat) : tileOk m.bounds ts (mkUnderlay pg cfg mapName m u c) = true := by
  simp [mkUnderlay, h, tileOk]

theorem tileOk_mkBaseVisual {pg : PathGetter} {cfg : Config} {mapName : String}
    {m : MapDesc} {ts : Nat} (h : cfg.layerSettings = some (.tiles ts))
    (k : String) (c : Nat) : tileOk m.bounds ts (mkBaseVisual pg cfg mapName m k c) = true := by
  simp [mkBaseVisual, h, tileOk]

theorem tileOk_mkOverlayVisual {pg : PathGetter} {cfg : Config} {mapName : String}
    {m : MapDesc} {ts : Nat} (h : cfg.layerSettings = some (.tiles ts))
    (L n : String) (c : Nat) :
    tileOk m.bounds 1024 (mkOverlayVisual pg cfg mapName m L n c) = true := by
  simp [mkOverlayVisual, h, tileOk]

theorem imageOk_mkUnderlay {pg : PathGetter} {cfg : Config} {mapName : String}
    {m : MapDesc} (h : cfgTileSize cfg = none) (u : String) (c : Nat) :
    imageOk m.bounds (mkUnderlay pg cfg mapName m u c) = true := by
  unfold cfgTileSize at h
  cases hls : cfg.layerSettings with
  | none => simp [mkUnderlay, hls, imageOk]
  | some ls =>
      cases ls with
      | tiles ts => rw [hls] at h; simp at h
      | other => simp [mkUnderlay, hls, imageOk]

theorem imageOk_mkBaseVisual {pg : PathGetter} {cfg : Config} {mapName : String}
    {m : MapDesc} (h : cfgTileSize cfg = none) (k : String) (c : Nat) :
    imageOk m.bounds (mkBaseVisual pg cfg mapName m k c) = true := by
  unfold cfgTileSize at h
  cases hls : cfg.layerSettings with
  | none => simp [mkBaseVisual, hls, imageOk]
  | some ls =>
      cases ls with
      | tiles ts => rw [hls] at h; simp at h
      | other => simp [mkBaseVisual, hls, imageOk]

theorem imageOk_mkOverlayVisual {pg : PathGetter} {cfg : Config} {mapName : String}
    {m : MapDesc} (h : cfgTileSize cfg = none) (L n : String) (c : Nat) :
    imageOk m.bounds (mkOverlayVisual pg cfg mapName m L n c) = true := by
  unfold cfgTileSize at h
  cases hls : cfg.layerSettings with
  | none => simp [mkOverlayVisual, hls, imageOk]
  | some ls =>
      cases ls with
      | tiles ts => rw [hls] at h; simp at h
      | other => simp [mkOverlayVisual, hls, imageOk]

theorem mem_mkUnderlays_ex {pg : PathGetter} {cfg : Config} {mapName : String}
    {m : MapDesc} :
    ∀ (names : List String) (c : Nat) (r : Renderable),
      r ∈ mkUnderlays pg cfg mapName m names c →
      ∃ u c', u ∈ names ∧ r = mkUnderlay pg cfg mapName m u c' := by
  intro names
  induction names with
  | nil => intro c r hr; simp [mkUnderlays] at hr
  | cons n rest ih =>
      intro c r hr
      rcases List.mem_cons.mp hr with h | h
      · exact ⟨n, c, by simp, h⟩
      · obtain ⟨u, c', hu, hr'⟩ := ih (c + 1) r h
        exact ⟨u, c', List.mem_cons_of_mem _ hu, hr'⟩

theorem baseLayersLoop_members {pg : PathGetter} {cfg : Config} {mapName : String}
    {m : MapDesc} {P : Renderable → Prop}
    (hU : ∀ u c, P (mkUnderlay pg cfg mapName m u c))
    (hB : ∀ k c, P (mkBaseVisual pg cfg mapName m k c)) :
    ∀ (entries : List (String × MapLevel)) (acc : StrMap Renderable) (c : Nat),
      (∀ p ∈ acc, ∀ r ∈ membersOf p.2, P r) →
      ∀ p ∈ baseLayersLoop pg cfg mapName m entries acc c, ∀ r ∈ membersOf p.2, P r := by
  intro entries
  induction entries with
  | nil => intro acc c hinv; exact hinv
  | cons q rest ih =>
      intro acc c hinv
      obtain ⟨k, lv⟩ := q
      refine ih _ _ ?_
      intro p hp r hr
      rcases mem_strSet hp with h1 | h1
      · exact hinv p h1 r hr
      · rw [h1] at hr
        have hmem : membersOf (mkLevelBase pg cfg mapName m k lv c) =
            mkUnderlays pg cfg mapName m (lv.underlays.getD []) c ++
              [mkBaseVisual pg cfg mapName m k (c + underlayCount lv)] := rfl
        rw [hmem] at hr
        rcases List.mem_append.mp hr with h2 | h2
        · obtain ⟨u, c', _, hr'⟩ := mem_mkUnderlays_ex _ _ r h2
          rw [hr']
          exact hU u c'
        · rw [List.mem_singleton.mp h2]
          exact hB k (c + underlayCount lv)

theorem overlayLevelLoop_entries {pg : PathGetter} {cfg : Config} {mapName : String}
    {m : MapDesc} {L : String} {Q : String × Renderable → Prop} {names0 : List String}
    (hQ : ∀ n lc c, n ∈ names0 → strGet cfg.layers n = some lc →
      Q (lc.display, mkOverlayVisual pg cfg mapName m L n c)) :
    ∀ (names : List String), (∀ x ∈ names, x ∈ names0) →
      ∀ (acc : StrMap Renderable) (c : Nat) (lm : StrMap Renderable),
      (∀ q ∈ acc, Q q) →
      overlayLevelLoop pg cfg mapName m L names acc c = .ok lm → ∀ q ∈ lm, Q q := by
  intro names
  induction names with
  | nil =>
      intro _ acc c lm hinv hok
      have hacc : acc = lm := Except.ok.inj hok
      subst hacc
      exact hinv
  | cons n rest ih =>
      intro hsub acc c lm hinv hok
      unfold overlayLevelLoop at hok
      cases hcl : strGet cfg.layers n with
      | none => rw [hcl] at hok; exact absurd hok (by simp)
      | some lc =>
          rw [hcl] at hok
          have hok' : overlayLevelLoop pg cfg mapName m L rest
              (strSet acc lc.display (mkOverlayVisual pg cfg mapName m L n c)) (c + 1) =
              .ok lm := hok
          refine ih (fun x hx => hsub x (List.mem_cons_of_mem _ hx)) _ _ lm ?_ hok'
          intro q hq
          rcases mem_strSet hq with h1 | h1
          · exact hinv q h1
          · rw [h1]
            exact hQ n lc c (hsub n (by simp)) hcl

theorem overlaysLoop_entries {pg : PathGetter} {cfg : Config} {mapName : String}
    {m : MapDesc} {R : String → String × Renderable → Prop}
    (hR : ∀ k n lc c, n ∈ m.layers.drop 1 → strGet cfg.layers n = some lc →
      R k (lc.display, mkOverlayVisual pg cfg mapName m k n c)) :
    ∀ (entries : List (String × MapLevel)) (acc : StrMap (StrMap Renderable)) (c : Nat)
      (ov : StrMap (StrMap Renderable)),
      (∀ p ∈ acc, ∀ q ∈ p.2, R p.1 q) →
      overlaysLoop pg cfg mapName m entries acc c = .ok ov →
      ∀ p ∈ ov, ∀ q ∈ p.2, R p.1 q := by
  intro entries
  induction entries with
  | nil =>
      intro acc c ov hinv hok
      have hacc : acc = ov := Except.ok.inj hok
      subst hacc
      exact hinv
  | cons p0 rest ih =>
      intro acc c ov hinv hok
      obtain ⟨k, lv⟩ := p0
      unfold overlaysLoop at hok
      cases hll : overlayLevelLoop pg cfg mapName m k (m.layers.drop 1) [] c with
      | error e => rw [hll] at hok; exact absurd hok (by simp)
      | ok lm =>
          rw [hll] at hok
          have hok' : overlaysLoop pg cfg mapName m rest (strSet acc k lm)
              (c + (m.layers.drop 1).length) = .ok ov := hok
          have hlm : ∀ q ∈ lm, R k q :=
            overlayLevelLoop_entries (hR k) (m.layers.drop 1) (fun x hx => hx) [] c lm
              (by simp) hll
          refine ih _ _ ov ?_ hok'
          intro p hp q hq
          rcases mem_strSet hp with h1 | h1
          · exact hinv p h1 q hq
          · rw [h1] at hq ⊢
            exact hlm q hq

/-- Claim C6: strategy selection.  Under a `Tiles` configuration every
constructed underlay and primary base visual is a tile layer bound to the
map's bounds with display and native zoom capped at 4 and the configured
tile size, and every overlay is such a tile layer with tile size 1024
regardless of the configured value; under any other or absent
`layerSettings`, every constructed renderable is an image overlay bound to
the map's bounds. -/
theorem claimC6_strategy (pg : PathGetter) (cfg : Config) (mapName : String)
    (m : MapDesc) (ws : WebmapState) (ts : Nat)
    (hok : initializeWebmap pg cfg mapName m = .ok ws) :
    (cfgTileSize cfg = some ts →
      (∀ p ∈ ws.baseLayers, ∀ r ∈ membersOf p.2, tileOk m.bounds ts r = true) ∧
      (∀ p ∈ ws.overlays, ∀ q ∈ p.2, tileOk m.bounds 1024 q.2 = true)) ∧
    (cfgTileSize cfg = none →
      (∀ p ∈ ws.baseLayers, ∀ r ∈ membersOf p.2, imageOk m.bounds r = true) ∧
      (∀ p ∈ ws.overlays, ∀ q ∈ p.2, imageOk m.bounds q.2 = true)) := by
  obtain ⟨hb, hov, _⟩ := initializeWebmap_fields hok
  unfold getOverlays at hov
  constructor
  · intro hts
    have hls := cfgTileSize_some_iff.mp hts
    constructor
    · rw [hb]
      unfold getBaseLayersForMap
      exact baseLayersLoop_members (fun u c => tileOk_mkUnderlay hls u c)
        (fun k c => tileOk_mkBaseVisual hls k c) m.levels [] 0 (by simp)
    · exact overlaysLoop_entries
        (R := fun k q => tileOk m.bounds 1024 q.2 = true)
        (fun k n lc c _ _ => tileOk_mkOverlayVisual hls k n c)
        m.levels [] (basesSize m.levels) ws.overlays (by simp) hov
  · intro hts
    constructor
    · rw [hb]
      unfold getBaseLayersForMap
      exact baseLayersLoop_members (fun u c => imageOk_mkUnderlay hts u c)
        (fun k c => imageOk_mkBaseVisual hts k c) m.levels [] 0 (by simp)
    · exact overlaysLoop_entries
        (R := fun k q => imageOk m.bounds q.2 = true)
        (fun k n lc c _ _ => imageOk_mkOverlayVisual hts k n c)
        m.levels [] (basesSize m.levels) ws.overlays (by simp) hov

theorem claimC6_witness :
    cfgTileSize cfg0 = some 256 ∧
      ((∀ p ∈ ws0.baseLayers, ∀ r ∈ membersOf p.2, tileOk map0.bounds 256 r = true) ∧
        (∀ p ∈ ws0.overlays, ∀ q ∈ p.2, tileOk map0.bounds 1024 q.2 = true)) :=
  ⟨by rfl,
    (claimC6_strategy pg0 cfg0 "station" map0 ws0 256 (by rfl)).1 (by rfl)⟩

theorem overlayLevelLoop_error_of_missing (pg : PathGetter) (cfg : Config)
    (mapName : String) (m : MapDesc) (L : String) :
    ∀ (names : List String) (acc : StrMap Renderable) (c : Nat),
      (∃ n, n ∈ names ∧ strGet cfg.layers n = none) →
      exceptOk (overlayLevelLoop pg cfg mapName m L names acc c) = false := by
  intro names
  induction names with
  | nil => intro acc c h; obtain ⟨n, hn, _⟩ := h; simp at hn
  | cons n0 rest ih =>
      intro acc c h
      obtain ⟨n, hn, hnone⟩ := h
      unfold overlayLevelLoop
      cases hcl : strGet cfg.layers n0 with
      | none => rfl
      | some lc =>
          have hn' : n ∈ rest := by
            rcases List.mem_cons.mp hn with h1 | h1
            · subst h1; rw [hcl] at hnone; exact absurd hnone (by simp)
            · exact h1
          exact ih _ _ ⟨n, hn', hnone⟩

theorem overlayLevelLoop_ok_of_allSome (pg : PathGetter) (cfg : Config)
    (mapName : String) (m : MapDesc) (L : String) :
    ∀ (names : List String) (acc : StrMap Renderable) (c : Nat),
      (∀ n ∈ names, (strGet cfg.layers n).isSome = true) →
      ∃ lm, overlayLevelLoop pg cfg mapName m L names acc c = .ok lm := by
  intro names
  induction names with
  | nil => intro acc c _; exact ⟨acc, rfl⟩
  | cons n0 rest ih =>
      intro acc c hall
      unfold overlayLevelLoop
      cases hcl : strGet cfg.layers n0 with
      | none =>
          have := hall n0 (by simp)
          rw [hcl] at this
          simp at this
      | some lc =>
          exact ih _ _ fun n' hn' => hall n' (List.mem_cons_of_mem _ hn')

theorem overlaysLoop_ok_of_allSome (pg : PathGetter) (cfg : Config)
    (mapName : String) (m : MapDesc)
    (hall : ∀ n ∈ m.layers.drop 1, (strGet cfg.layers n).isSome = true) :
    ∀ (entries : List (String × MapLevel)) (acc : StrMap (StrMap Renderable)) (c : Nat),
      ∃ ov, overlaysLoop pg cfg mapName m entries acc c = .ok ov := by
  intro entries
  induction entries with
  | nil => intro acc c; exact ⟨acc, rfl⟩
  | cons p rest ih =>
      intro acc c
      obtain ⟨k, lv⟩ := p
      obtain ⟨lm, hlm⟩ :=
        overlayLevelLoop_ok_of_allSome pg cfg mapName m k (m.layers.drop 1) [] c hall
      unfold overlaysLoop
      rw [hlm]
      exact ih _ _

/-- Claim C10 (amended): `_getOverlays` (and hence `initialize()`) fails if
and only if the description has at least one level and some overlay name in
`layers[1:]` has no entry in the configuration's `layers` mapping — with no
levels the inner loop never runs and the missing entry is never read.  In a
successful build, every overlay is indexed by its config entry's display
label. -/
theorem claimC10_missing_config (pg : PathGetter) (cfg : Config) (mapName : String)
    (m : MapDesc) (c : Nat) :
    (exceptOk (getOverlays pg cfg mapName m c) = false ↔
      m.levels ≠ [] ∧ ∃ n, n ∈ m.layers.drop 1 ∧ strGet cfg.layers n = none) ∧
    (∀ ov, getOverlays pg cfg mapName m c = .ok ov →
      ∀ p ∈ ov, ∀ q ∈ p.2,
        ∃ n lc, n ∈ m.layers.drop 1 ∧ strGet cfg.layers n = some lc ∧
          q.1 = lc.display) := by
  constructor
  · constructor
    · intro hfail
      constructor
      · intro hnil
        unfold getOverlays at hfail
        rw [hnil] at hfail
        simp [overlaysLoop, exceptOk] at hfail
      · by_contra hno
        push_neg at hno
        have hall : ∀ n ∈ m.layers.drop 1, (strGet cfg.layers n).isSome = true := by
          intro n hn
          cases hcl : strGet cfg.layers n with
          | none => exact absurd hcl (hno n hn)
          | some lc => rfl
        obtain ⟨ov, hov⟩ := overlaysLoop_ok_of_allSome pg cfg mapName m hall m.levels [] c
        unfold getOverlays at hfail
        rw [hov] at hfail
        simp [exceptOk] at hfail
    · rintro ⟨hne, n, hn, hnone⟩
      unfold getOverlays
      cases hlv : m.levels with
      | nil => exact absurd hlv hne
      | cons p rest =>
          obtain ⟨k, lv⟩ := p
          have hmiss := overlayLevelLoop_error_of_missing pg cfg mapName m k
            (m.layers.drop 1) [] c ⟨n, hn, hnone⟩
          unfold overlaysLoop
          cases hll : overlayLevelLoop pg cfg mapName m k (m.layers.drop 1) [] c with
          | ok lm => rw [hll] at hmiss; simp [exceptOk] at hmiss
          | error e => rfl
  · intro ov hov
    unfold getOverlays at hov
    exact overlaysLoop_entries
      (R := fun k q => ∃ n lc, n ∈ m.layers.drop 1 ∧ strGet cfg.layers n = some lc ∧
        q.1 = lc.display)
      (fun k n lc c' hn hcl => ⟨n, lc, hn, hcl, rfl⟩)
      m.levels [] c ov (by simp) hov

theorem claimC10_witness :
    (exceptOk (getOverlays pg0 cfg10 "m" ⟨bounds0, ["f", "missing"], [("L", ⟨none⟩)], "L"⟩ 0) =
        false ↔
      ([("L", (⟨none⟩ : MapLevel))] : List (String × MapLevel)) ≠ [] ∧
        ∃ n, n ∈ (["f", "missing"] : List String).drop 1 ∧ strGet cfg10.layers n = none) ∧
      exceptOk (getOverlays pg0 cfg10 "m" ⟨bounds0, ["f", "missing"], [("L", ⟨none⟩)], "L"⟩ 0) =
        false :=
  ⟨(claimC10_missing_config pg0 cfg10 "m" ⟨bounds0, ["f", "missing"], [("L", ⟨none⟩)], "L"⟩ 0).1,
    ((claimC10_missing_config pg0 cfg10 "m" ⟨bounds0, ["f", "missing"], [("L", ⟨none⟩)], "L"⟩ 0).1).mpr
      ⟨by decide, "missing", by decide, by rfl⟩⟩

theorem claimC10_counterexample :
    exceptOk (getOverlays pg0 cfg10 "m" map10 0) = true ∧
      exceptOk (initializeWebmap pg0 cfg10 "m" map10) = true ∧
      "missing" ∈ map10.layers.drop 1 ∧ strGet cfg10.layers "missing" = none :=
  ⟨by rfl, by rfl, by decide, by rfl⟩

theorem urlOf_mkUnderlay (pg : PathGetter) (cfg : Config) (mapName : String)
    (m : MapDesc) (u : String) (c : Nat) :
    Renderable.urlOf (mkUnderlay pg cfg mapName m u c) =
      some (resolvedUrl cfg (pg mapName u (primaryName m))) := by
  cases hls : cfg.layerSettings with
  | none => simp [mkUnderlay, resolvedUrl, hls, Renderable.urlOf]
  | some ls => cases ls <;> simp [mkUnderlay, resolvedUrl, hls, Renderable.urlOf]

theorem urlOf_mkBaseVisual (pg : PathGetter) (cfg : Config) (mapName : String)
    (m : MapDesc) (k : String) (c : Nat) :
    Renderable.urlOf (mkBaseVisual pg cfg mapName m k c) =
      some (resolvedUrl cfg (pg mapName k (primaryName m))) := by
  cases hls : cfg.layerSettings with
  | none => simp [mkBaseVisual, resolvedUrl, hls, Renderable.urlOf]
  | some ls => cases ls <;> simp [mkBaseVisual, resolvedUrl, hls, Renderable.urlOf]

theorem urlOf_mkOverlayVisual (pg : PathGetter) (cfg : Config) (mapName : String)
    (m : MapDesc) (L n : String) (c : Nat) :
    Renderable.urlOf (mkOverlayVisual pg cfg mapName m L n c) =
      some (resolvedUrl cfg (pg mapName L n)) := by
  cases hls : cfg.layerSettings with
  | none => simp [mkOverlayVisual, resolvedUrl, hls, Renderable.urlOf]
  | some ls => cases ls <;> simp [mkOverlayVisual, resolvedUrl, hls, Renderable.urlOf]

theorem urls_mkUnderlays (pg : PathGetter) (cfg : Config) (mapName : String)
    (m : MapDesc) :
    ∀ (names : List String) (c : Nat),
      (mkUnderlays pg cfg mapName m names c).filterMap Renderable.urlOf =
        names.map (fun u => resolvedUrl cfg (pg mapName u (primaryName m))) := by
  intro names
  induction names with
  | nil => intro c; rfl
  | cons u rest ih =>
      intro c
      simp [mkUnderlays, List.filterMap_cons, urlOf_mkUnderlay, ih]

theorem memberUrls_mkLevelBase (pg : PathGetter) (cfg : Config) (mapName : String)
    (m : MapDesc) (k : String) (lv : MapLevel) (c : Nat) :
    memberUrls (mkLevelBase pg cfg mapName m k lv c) =
      (lv.underlays.getD []).map (fun u => resolvedUrl cfg (pg mapName u (primaryName m))) ++
        [resolvedUrl cfg (pg mapName k (primaryName m))] := by
  have hmem : membersOf (mkLevelBase pg cfg mapName m k lv c) =
      mkUnderlays pg cfg mapName m (lv.underlays.getD []) c ++
        [mkBaseVisual pg cfg mapName m k (c + underlayCount lv)] := rfl
  unfold memberUrls
  rw [hmem, List.filterMap_append, urls_mkUnderlays,
      List.filterMap_cons]
  simp [urlOf_mkBaseVisual]

theorem strGet_expBaseEntries (pg : PathGetter) (cfg : Config) (mapName : String)
    (m : MapDesc) :
    ∀ (entries : List (String × MapLevel)) (c : Nat) (L : String) (lv : MapLevel),
      (entries.map Prod.fst).Nodup → (L, lv) ∈ entries →
      ∃ c', strGet (expBaseEntries pg cfg mapName m entries c) L =
        some (mkLevelBase pg cfg mapName m L lv c') := by
  intro entries
  induction entries with
  | nil => intro c L lv _ hmem; simp at hmem
  | cons p rest ih =>
      intro c L lv hN hmem
      obtain ⟨k0, lv0⟩ := p
      simp only [List.map_cons, List.nodup_cons] at hN
      rcases List.mem_cons.mp hmem with h1 | h1
      · have hL : L = k0 := congrArg Prod.fst h1
        have hlv : lv = lv0 := congrArg Prod.snd h1
        subst hL
        subst hlv
        exact ⟨c, by simp [expBaseEntries, strGet]⟩
      · have hne : k0 ≠ L := by
          intro he
          subst he
          exact hN.1 (List.mem_map_of_mem Prod.fst h1)
        obtain ⟨c', hc'⟩ := ih (c + levelBaseSize lv0) L lv hN.2 h1
        exact ⟨c', by simpa [expBaseEntries, strGet, hne] using hc'⟩

theorem overlaysLoop_eq (pg : PathGetter) (cfg : Config) (mapName : String) (m : MapDesc) :
    ∀ (entries : List (String × MapLevel)) (acc : StrMap (StrMap Renderable)) (c : Nat)
      (ov : StrMap (StrMap Renderable)),
      (entries.map Prod.fst).Nodup →
      (∀ k ∈ entries.map Prod.fst, k ∉ strKeys acc) →
      (displaysOf cfg (m.layers.drop 1)).Nodup →
      overlaysLoop pg cfg mapName m entries acc c = .ok ov →
      ov = acc ++ expOvEntries pg cfg mapName m entries c := by
  intro entries
  induction entries with
  | nil =>
      intro acc c ov _ _ _ hok
      have hacc : acc = ov := Except.ok.inj hok
      subst hacc
      simp [expOvEntries]
  | cons p rest ih =>
      intro acc c ov hN hdisj hd hok
      obtain ⟨k, lv⟩ := p
      simp only [List.map_cons, List.nodup_cons] at hN
      unfold overlaysLoop at hok
      cases hll : overlayLevelLoop pg cfg mapName m k (m.layers.drop 1) [] c with
      | error e => rw [hll] at hok; exact absurd hok (by simp)
      | ok lm =>
          rw [hll] at hok
          have hok' : overlaysLoop pg cfg mapName m rest (strSet acc k lm)
              (c + (m.layers.drop 1).length) = .ok ov := hok
          have hlm : lm = expLevelEntries pg cfg mapName m k (m.layers.drop 1) c := by
            have hchar := overlayLevelLoop_eq pg cfg mapName m k (m.layers.drop 1) [] c lm
              hd (by simp [strKeys]) hll
            simpa using hchar
          have hkfresh : k ∉ strKeys acc := hdisj k (by simp)
          rw [strSet_fresh acc k lm hkfresh] at hok'
          have hres := ih _ _ ov hN.2 ?_ hd hok'
          · rw [hres, hlm]
            simp [expOvEntries]
          · intro k' hk'
            have hkeys : strKeys (acc ++ [(k, lm)]) = strKeys acc ++ [k] := by simp [strKeys]
            rw [hkeys]
            simp only [List.mem_append, List.mem_singleton]
            rintro (h1 | h2)
            · exact hdisj k' (List.mem_cons_of_mem _ hk') h1
            · subst h2; exact hN.1 hk'

theorem strGet_expOvEntries (pg : PathGetter) (cfg : Config) (mapName : String)
    (m : MapDesc) :
    ∀ (entries : List (String × MapLevel)) (c : Nat) (L : String) (lv : MapLevel),
      (entries.map Prod.fst).Nodup → (L, lv) ∈ entries →
      ∃ c', strGet (expOvEntries pg cfg mapName m entries c) L =
        some (expLevelEntries pg cfg mapName m L (m.layers.drop 1) c') := by
  intro entries
  induction entries with
  | nil => intro c L lv _ hmem; simp at hmem
  | cons p rest ih =>
      intro c L lv hN hmem
      obtain ⟨k0, lv0⟩ := p
      simp only [List.map_cons, List.nodup_cons] at hN
      rcases List.mem_cons.mp hmem with h1 | h1
      · have hL : L = k0 := congrArg Prod.fst h1
        subst hL
        exact ⟨c, by simp [expOvEntries, strGet]⟩
      · have hne : k0 ≠ L := by
          intro he
          subst he
          exact hN.1 (List.mem_map_of_mem Prod.fst h1)
        obtain ⟨c', hc'⟩ := ih (c + (m.layers.drop 1).length) L lv hN.2 h1
        exact ⟨c', by simpa [expOvEntries, strGet, hne] using hc'⟩

theorem urls_expLevelEntries (pg : PathGetter) (cfg : Config) (mapName : String)
    (m : MapDesc) (L : String) :
    ∀ (names : List String) (c : Nat),
      (∀ n ∈ names, (strGet cfg.layers n).isSome = true) →
      (expLevelEntries pg cfg mapName m L names c).map (fun q => Renderable.urlOf q.2) =
        names.map (fun n => some (resolvedUrl cfg (pg mapName L n))) := by
  intro names
  induction names with
  | nil => intro c _; rfl
  | cons n rest ih =>
      intro c hall
      cases hcl : strGet cfg.layers n with
      | none =>
          have := hall n (by simp)
          rw [hcl] at this
          simp at this
      | some lc =>
          simp [expLevelEntries, hcl, urlOf_mkOverlayVisual,
            ih _ fun n' hn' => hall n' (List.mem_cons_of_mem _ hn')]

theorem overlaysLoop_ok_allSome (pg : PathGetter) (cfg : Config) (mapName : String)
    (m : MapDesc) :
    ∀ (entries : List (String × MapLevel)) (acc : StrMap (StrMap Renderable)) (c : Nat)
      (ov : StrMap (StrMap Renderable)),
      overlaysLoop pg cfg mapName m entries acc c = .ok ov → entries ≠ [] →
      ∀ n ∈ m.layers.drop 1, (strGet cfg.layers n).isSome = true := by
  intro entries
  cases entries with
  | nil => intro acc c ov _ hne; exact absurd rfl hne
  | cons p rest =>
      intro acc c ov hok _
      obtain ⟨k, lv⟩ := p
      unfold overlaysLoop at hok
      cases hll : overlayLevelLoop pg cfg mapName m k (m.layers.drop 1) [] c with
      | error e => rw [hll] at hok; exact absurd hok (by simp)
      | ok lm => exact overlayLevelLoop_ok_isSome pg cfg mapName m k _ _ _ _ hll

/-- Claim C7: during initialization the path resolver is invoked with
exactly the triples `(mapName, underlayName, layers[0])` for each underlay
(underlays resolve against the primary layer name), `(mapName, levelName,
layers[0])` for each level's primary visual, and `(mapName, levelName,
overlayName)` for each name in `layers[1:]` — stated for an arbitrary
resolver `pg` by reading each built renderable's location back. -/
theorem claimC7_resolver_triples (pg : PathGetter) (cfg : Config) (mapName : String)
    (m : MapDesc) (ws : WebmapState) (l0 : String) (ltail : List String)
    (hlayers : m.layers = l0 :: ltail)
    (hN : (m.levels.map Prod.fst).Nodup)
    (hd : (displaysOf cfg (m.layers.drop 1)).Nodup)
    (hok : initializeWebmap pg cfg mapName m = .ok ws) :
    (∀ L lv, (L, lv) ∈ m.levels →
      ∃ g, strGet ws.baseLayers L = some g ∧
        memberUrls g =
          (lv.underlays.getD []).map (fun u => resolvedUrl cfg (pg mapName u l0)) ++
            [resolvedUrl cfg (pg mapName L l0)]) ∧
    (∀ L lv, (L, lv) ∈ m.levels →
      ∃ lm, strGet ws.overlays L = some lm ∧
        lm.map (fun q => Renderable.urlOf q.2) =
          (m.layers.drop 1).map (fun n => some (resolvedUrl cfg (pg mapName L n)))) := by
  obtain ⟨hb, hov, _⟩ := initializeWebmap_fields hok
  have hp : primaryName m = l0 := by
    unfold primaryName
    rw [hlayers]
    rfl
  constructor
  · intro L lv hmem
    obtain ⟨c', hget⟩ := strGet_expBaseEntries pg cfg mapName m m.levels 0 L lv hN hmem
    refine ⟨mkLevelBase pg cfg mapName m L lv c', ?_, ?_⟩
    · rw [hb, getBaseLayersForMap_eq hN]
      exact hget
    · rw [memberUrls_mkLevelBase, hp]
  · intro L lv hmem
    unfold getOverlays at hov
    have hovc := overlaysLoop_eq pg cfg mapName m m.levels [] (basesSize m.levels)
      ws.overlays hN (by simp [strKeys]) hd hov
    have hne : m.levels ≠ [] := by
      intro h
      rw [h] at hmem
      simp at hmem
    have hall := overlaysLoop_ok_allSome pg cfg mapName m m.levels [] (basesSize m.levels)
      ws.overlays hov hne
    obtain ⟨c', hget⟩ :=
      strGet_expOvEntries pg cfg mapName m m.levels (basesSize m.levels) L lv hN hmem
    refine ⟨expLevelEntries pg cfg mapName m L (m.layers.drop 1) c', ?_, ?_⟩
    · rw [hovc]
      simpa using hget
    · exact urls_expLevelEntries pg cfg mapName m L (m.layers.drop 1) c' hall

theorem claimC7_witness :
    map0.layers = "floor" :: ["electrical", "plumbing"] ∧
      (∃ g, strGet ws0.baseLayers "L2" = some g ∧
        memberUrls g =
          ((⟨some ["basement"]⟩ : MapLevel).underlays.getD []).map
              (fun u => resolvedUrl cfg0 (pg0 "station" u "floor")) ++
            [resolvedUrl cfg0 (pg0 "station" "L2" "floor")]) :=
  ⟨by rfl,
    (claimC7_resolver_triples pg0 cfg0 "station" map0 ws0 "floor" ["electrical", "plumbing"]
        (by rfl) (by decide) (by decide) (by rfl)).1 "L2" ⟨some ["basement"]⟩ (by decide)⟩
